import Mathlib

/-!
Verification of the vCard-to-CSV converter core.

The repository ships two variants of the converter:
* a fixed-schema variant (`src/src/lib/vcf-converter.ts`), embedded in namespace `Fixed`;
* a dynamic-schema variant (`src/unnamed/part_000`, first module), embedded in namespace `Dyn`.

JavaScript strings are modelled as `List Char`.  All functions are direct shallow
embeddings of the TypeScript source: `String.prototype.trim` is `jsTrim`,
`String.prototype.split(c)` is `splitOnChar`, the line split on the regex
`\r\n|\r|\n` is `splitLines`, `String.prototype.includes` is `containsSub`, and
the case-insensitive split on `BEGIN:VCARD` is `splitMarker`.
-/

/-- Convert a Lean string literal to the character-list model of a JS string. -/
def str (s : String) : List Char := s.data

/-- Whitespace as trimmed by `String.prototype.trim` (restricted to the ASCII
whitespace that can occur here: space, tab, CR, LF). -/
def isWS (c : Char) : Bool := c.isWhitespace

/-- Drop trailing whitespace. -/
def wsRDrop (s : List Char) : List Char := (s.reverse.dropWhile isWS).reverse

/-- Embedding of `String.prototype.trim`. -/
def jsTrim (s : List Char) : List Char := wsRDrop (s.dropWhile isWS)

/-- Embedding of `String.prototype.split(sep)` for a single-character separator:
splits at every occurrence, keeping empty segments; the empty string yields one
empty segment. -/
def splitOnChar (sep : Char) : List Char → List (List Char)
  | [] => [[]]
  | c :: rest =>
    if c = sep then [] :: splitOnChar sep rest
    else
      match splitOnChar sep rest with
      | [] => [[c]]
      | p :: ps => (c :: p) :: ps

/-- Embedding of `text.split(/\r\n|\r|\n/)`: at every position the two-character
separator `\r\n` is preferred over the single-character ones. -/
def splitLines : List Char → List (List Char)
  | [] => [[]]
  | '\r' :: '\n' :: rest => [] :: splitLines rest
  | '\r' :: rest => [] :: splitLines rest
  | '\n' :: rest => [] :: splitLines rest
  | c :: rest =>
    match splitLines rest with
    | [] => [[c]]
    | p :: ps => (c :: p) :: ps

/-- Embedding of `Array.prototype.join(sep)`. -/
def joinWith (xs : List (List Char)) (sep : List Char) : List Char :=
  match xs with
  | [] => []
  | [x] => x
  | x :: y :: rest => x ++ sep ++ joinWith (y :: rest) sep

/-- Embedding of `String.prototype.includes` (contiguous substring test). -/
def containsSub (needle : List Char) : List Char → Bool
  | [] => needle.isEmpty
  | c :: rest => needle.isPrefixOf (c :: rest) || containsSub needle rest

/-- Case-insensitive character comparison, as used by the `/BEGIN:VCARD/i` regex. -/
def lowerEq (a b : Char) : Bool := a.toLower = b.toLower

/-- Case-insensitive list equality. -/
def ciEq : List Char → List Char → Bool
  | [], [] => true
  | a :: as, b :: bs => lowerEq a b && ciEq as bs
  | _, _ => false

def kwBeginVCard : List Char := ['B', 'E', 'G', 'I', 'N', ':', 'V', 'C', 'A', 'R', 'D']
def kwEndVCard : List Char := ['E', 'N', 'D', ':', 'V', 'C', 'A', 'R', 'D']
def kwVERSION : List Char := ['V', 'E', 'R', 'S', 'I', 'O', 'N', ':']
def kwFN : List Char := ['F', 'N']
def kwN : List Char := ['N']
def kwTEL : List Char := ['T', 'E', 'L']
def kwEMAIL : List Char := ['E', 'M', 'A', 'I', 'L']
def kwADR : List Char := ['A', 'D', 'R']
def kwFirstName : List Char := ['F', 'i', 'r', 's', 't', ' ', 'N', 'a', 'm', 'e']
def kwLastName : List Char := ['L', 'a', 's', 't', ' ', 'N', 'a', 'm', 'e']
def kwTYPE : List Char := ['T', 'Y', 'P', 'E', '=']
def commaSpace : List Char := [',', ' ']
def commaSep : List Char := [',']
def newlineSep : List Char := ['\n']

/-- Embedding of `vcfContent.split(/BEGIN:VCARD/i)`: scan left to right; at each
case-insensitive occurrence of the 11-character marker, cut a segment and
continue after the marker.  `skip` counts separator characters still to be
consumed after a match, so the recursion is structural in the text. -/
def splitMarkerGo : List Char → Nat → List Char → List (List Char)
  | [], _, acc => [acc.reverse]
  | _ :: rest, skip + 1, acc => splitMarkerGo rest skip acc
  | c :: rest, 0, acc =>
    if ciEq (List.take 11 (c :: rest)) kwBeginVCard then
      acc.reverse :: splitMarkerGo rest 10 []
    else
      splitMarkerGo rest 0 (c :: acc)

/-- The segments of the input around the case-insensitive `BEGIN:VCARD` markers
(the result of the JS `split`). -/
def splitMarker (s : List Char) : List (List Char) := splitMarkerGo s 0 []

/-- Scan counting the case-insensitive occurrences of `BEGIN:VCARD`, mirroring
the left-to-right non-overlapping scan of the regex engine. -/
def countMarkerGo : List Char → Nat → Nat
  | [], _ => 0
  | _ :: rest, skip + 1 => countMarkerGo rest skip
  | c :: rest, 0 =>
    if ciEq (List.take 11 (c :: rest)) kwBeginVCard then countMarkerGo rest 10 + 1
    else countMarkerGo rest 0

/-- Number of case-insensitive occurrences of `BEGIN:VCARD` in the input (the
marker cannot overlap itself, so this is the plain occurrence count). -/
def countMarker (s : List Char) : Nat := countMarkerGo s 0

/-- Embedding of `parseName` (identical in both source variants): trim, split on
single spaces, first part is the first name, the remaining parts rejoined with
single spaces form the last name. -/
def parseName (fullName : List Char) : List Char × List Char :=
  ((splitOnChar ' ' (jsTrim fullName)).headD [],
   joinWith ((splitOnChar ' ' (jsTrim fullName)).drop 1) [' '])

/-- First-match association lookup with empty-string default: embedding of a JS
object property read `obj[k]` combined with the falsy check / `|| ''` idioms
(absent key and empty string are indistinguishable). -/
def lookupVal (m : List (List Char × List Char)) (k : List Char) : List Char :=
  match m with
  | [] => []
  | (k2, v) :: rest => if k2 = k then v else lookupVal rest k

/-- Embedding of a JS object property write `obj[k] = v`: updates the existing
entry in place, or appends a new entry (insertion order is preserved). -/
def setEntry {β : Type} : List (List Char × β) → List Char → β → List (List Char × β)
  | [], k, v => [(k, v)]
  | (k2, v2) :: rest, k, v => if k2 = k then (k, v) :: rest else (k2, v2) :: setEntry rest k v

/-- Counter-map read with default 0 (JS `fieldCounts[k]` where `undefined` and 0
behave alike under the `!fieldCounts[k]` reset). -/
def countVal (m : List (List Char × Nat)) (k : List Char) : Nat :=
  match m with
  | [] => 0
  | (k2, v) :: rest => if k2 = k then v else countVal rest k

/-- Keys of a record in insertion order (`Object.keys`). -/
def keysOf (m : List (List Char × List Char)) : List (List Char) := m.map Prod.fst

/-- Decimal rendering of a number, for the `` `${key} ${count}` `` template. -/
def natStr (n : Nat) : List Char := (Nat.repr n).data

namespace Fixed

/-- Fixed-schema record, from `src/src/lib/vcf-converter.ts`. -/
structure Contact where
  firstName : List Char
  lastName : List Char
  phone1 : List Char
  phone2 : List Char
  phone3 : List Char
  email1 : List Char
  email2 : List Char
  email3 : List Char
  addresses : List Char
deriving Repr, DecidableEq

/-- Per-card accumulator of the fixed-schema `parseVCard` loop. -/
structure CardAcc where
  fullName : List Char
  phoneNumbers : List (List Char)
  emails : List (List Char)
  addresses : List (List Char)
deriving Repr, DecidableEq

/-- One attempt of the regex `PRE[^:]*:(.+)` at a fixed start position: the
prefix must match literally, then everything up to the first colon after it is
consumed, and the (greedy, non-empty) group is the rest of the line. -/
def matchAt (pre s : List Char) : Option (List Char) :=
  if pre.isPrefixOf s then
    match (s.drop pre.length).dropWhile (fun c => c != ':') with
    | _ :: v => if v = [] then none else some v
    | [] => none
  else none

/-- Embedding of `line.match(/PRE[^:]*:(.+)/)`: try every start position left to
right and return the first successful capture group. -/
def matchFieldValue (pre : List Char) : List Char → Option (List Char)
  | [] => none
  | c :: rest =>
    match matchAt pre (c :: rest) with
    | some v => some v
    | none => matchFieldValue pre rest

def kwFNColon : List Char := ['F', 'N', ':']
def kwTELColon : List Char := ['T', 'E', 'L', ':']
def kwTELSemi : List Char := ['T', 'E', 'L', ';']
def kwEMAILColon : List Char := ['E', 'M', 'A', 'I', 'L', ':']
def kwEMAILSemi : List Char := ['E', 'M', 'A', 'I', 'L', ';']
def kwADRColon : List Char := ['A', 'D', 'R', ':']
def kwADRSemi : List Char := ['A', 'D', 'R', ';']

/-- Loop body of the fixed-schema `parseVCard`, one line at a time. -/
def stepFn (st : CardAcc) (line : List Char) : CardAcc :=
  let t := jsTrim line
  if kwFNColon.isPrefixOf t then
    { st with fullName := t.drop 3 }
  else if kwTELColon.isPrefixOf t ∨ containsSub kwTELSemi t then
    match matchFieldValue kwTEL t with
    | some v => { st with phoneNumbers := st.phoneNumbers ++ [jsTrim v] }
    | none => st
  else if kwEMAILColon.isPrefixOf t ∨ containsSub kwEMAILSemi t then
    match matchFieldValue kwEMAIL t with
    | some v => { st with emails := st.emails ++ [jsTrim v] }
    | none => st
  else if kwADRColon.isPrefixOf t ∨ containsSub kwADRSemi t then
    match matchFieldValue kwADR t with
    | some v =>
      let addrParts := (splitOnChar ';' v).filter (fun p => !(jsTrim p).isEmpty)
      if addrParts = [] then st
      else { st with addresses := st.addresses ++ [joinWith addrParts commaSpace] }
    | none => st
  else st

/-- The accumulator after the whole per-card loop. -/
def cardAcc (vcardText : List Char) : CardAcc :=
  (splitLines vcardText).foldl stepFn ⟨[], [], [], []⟩

/-- Assembly of the final fixed-schema record from the accumulator (the
`phoneNumbers[i] || ''` reads). -/
def mkContact (fullName : List Char) (phoneNumbers emails addresses : List (List Char)) :
    Contact :=
  { firstName := (parseName fullName).1
    lastName := (parseName fullName).2
    phone1 := phoneNumbers.getD 0 []
    phone2 := phoneNumbers.getD 1 []
    phone3 := phoneNumbers.getD 2 []
    email1 := emails.getD 0 []
    email2 := emails.getD 1 []
    email3 := emails.getD 2 []
    addresses := joinWith addresses commaSpace }

/-- Embedding of the fixed-schema `parseVCard`. -/
def parseVCard (vcardText : List Char) : Contact :=
  mkContact (cardAcc vcardText).fullName (cardAcc vcardText).phoneNumbers
    (cardAcc vcardText).emails (cardAcc vcardText).addresses

/-- Embedding of `parseVCF`: case-insensitive split on the marker, drop the text
before the first marker, re-prepend the canonical marker to every block. -/
def parseVCF (vcfContent : List Char) : List Contact :=
  ((splitMarker vcfContent).drop 1).map (fun block => parseVCard (kwBeginVCard ++ block))

/-- The fixed header labels. -/
def headersRow : List (List Char) :=
  [kwFirstName, kwLastName,
   str ("Phone 1"), str ("Phone 2"), str ("Phone 3"),
   str ("Email 1"), str ("Email 2"), str ("Email 3"),
   str ("Addresses")]

/-- Embedding of the fixed-schema `convertToCSV`: fixed header, one row per
contact, each cell wrapped in double quotes with no escaping. -/
def convertToCSV (contacts : List Contact) : List Char :=
  joinWith
    (joinWith headersRow commaSep ::
      contacts.map (fun c =>
        joinWith
          [ '"' :: c.firstName ++ ['"'],
            '"' :: c.lastName ++ ['"'],
            '"' :: c.phone1 ++ ['"'],
            '"' :: c.phone2 ++ ['"'],
            '"' :: c.phone3 ++ ['"'],
            '"' :: c.email1 ++ ['"'],
            '"' :: c.email2 ++ ['"'],
            '"' :: c.email3 ++ ['"'],
            '"' :: c.addresses ++ ['"'] ] commaSep))
    newlineSep

end Fixed

namespace Dyn

/-- The static field-type → human label table of `normalizeFieldName`. -/
def fieldMapping : List (List Char × List Char) :=
  [(kwFN, str ("Full Name")),
   (kwN, str ("Name")),
   (str ("ORG"), str ("Organization")),
   (str ("TITLE"), str ("Title")),
   (str ("ROLE"), str ("Role")),
   (str ("BDAY"), str ("Birthday")),
   (str ("URL"), str ("Website")),
   (str ("NOTE"), str ("Notes")),
   (str ("NICKNAME"), str ("Nickname")),
   (str ("CATEGORIES"), str ("Categories"))]

/-- `type.charAt(0).toUpperCase() + type.slice(1).toLowerCase()`. -/
def capFirst : List Char → List Char
  | [] => []
  | c :: rest => c.toUpper :: rest.map Char.toLower

/-- The `TYPE=` parameter handling shared by the TEL/EMAIL/ADR branches of
`normalizeFieldName`. -/
def appendTypeParam (base : List Char) (params : List (List Char)) : List Char :=
  match params.find? (fun p => kwTYPE.isPrefixOf p) with
  | some tp => base ++ ' ' :: capFirst ((splitOnChar '=' tp).getD 1 [])
  | none => base

/-- Embedding of `normalizeFieldName`. -/
def normalizeFieldName (vcfField : List Char) : List Char :=
  let parts := splitOnChar ';' vcfField
  let fieldType := parts.headD []
  let params := parts.drop 1
  if fieldType = kwTEL then appendTypeParam (str ("Phone")) params
  else if fieldType = kwEMAIL then appendTypeParam (str ("Email")) params
  else if fieldType = kwADR then appendTypeParam (str ("Address")) params
  else ((fieldMapping.find? (fun p => decide (p.1 = fieldType))).map Prod.snd).getD fieldType

/-- State of the dynamic-schema `parseVCard` loop: the contact object and the
per-label repeat counters, both in insertion order. -/
structure VState where
  contact : List (List Char × List Char)
  counts : List (List Char × Nat)
deriving Repr, DecidableEq

/-- Loop body of the dynamic-schema `parseVCard`, one line at a time. -/
def stepFn (st : VState) (line : List Char) : VState :=
  let t := jsTrim line
  if t = [] ∨ t = kwBeginVCard ∨ t = kwEndVCard ∨ kwVERSION.isPrefixOf t then st
  else
    let fieldPart := t.takeWhile (fun c => c != ':')
    let colonRest := t.dropWhile (fun c => c != ':')
    if colonRest = [] then st
    else
      let value := jsTrim (colonRest.drop 1)
      if value = [] then st
      else if fieldPart = kwFN then
        let withFirst := setEntry st.contact kwFirstName (parseName value).1
        { st with contact := setEntry withFirst kwLastName (parseName value).2 }
      else if fieldPart = kwN then
        let nameParts := splitOnChar ';' value
        let c1 :=
          if nameParts.getD 1 [] ≠ [] ∧ lookupVal st.contact kwFirstName = [] then
            setEntry st.contact kwFirstName (nameParts.getD 1 [])
          else st.contact
        let c2 :=
          if nameParts.getD 0 [] ≠ [] ∧ lookupVal c1 kwLastName = [] then
            setEntry c1 kwLastName (nameParts.getD 0 [])
          else c1
        { st with contact := c2 }
      else if kwADR.isPrefixOf fieldPart then
        let addrParts := (splitOnChar ';' value).filter (fun p => !(jsTrim p).isEmpty)
        if addrParts = [] then st
        else
          let fieldKey := normalizeFieldName fieldPart
          let newCount := countVal st.counts fieldKey + 1
          { contact :=
              setEntry st.contact
                (if newCount > 1 then fieldKey ++ ' ' :: natStr newCount else fieldKey)
                (joinWith addrParts commaSpace)
            counts := setEntry st.counts fieldKey newCount }
      else
        let fieldKey := normalizeFieldName fieldPart
        let newCount := countVal st.counts fieldKey + 1
        { contact :=
            setEntry st.contact
              (if newCount > 1 then fieldKey ++ ' ' :: natStr newCount else fieldKey)
              value
          counts := setEntry st.counts fieldKey newCount }

/-- State after folding the loop body over a list of lines. -/
def cardState (lines : List (List Char)) : VState :=
  lines.foldl stepFn ⟨[], []⟩

/-- Embedding of the dynamic-schema `parseVCard`, including the final
First-Name/Last-Name defaulting. -/
def parseVCard (vcardText : List Char) : List (List Char × List Char) :=
  let st := cardState (splitLines vcardText)
  let c1 :=
    if lookupVal st.contact kwFirstName = [] then setEntry st.contact kwFirstName []
    else st.contact
  if lookupVal c1 kwLastName = [] then setEntry c1 kwLastName [] else c1

/-- Embedding of the dynamic-schema `parseVCF` (identical splitting logic to the
fixed variant). -/
def parseVCF (vcfContent : List Char) : List (List (List Char × List Char)) :=
  ((splitMarker vcfContent).drop 1).map (fun block => parseVCard (kwBeginVCard ++ block))

/-- The normalized label and stored value a line contributes through the
counted (repeat-disambiguated) path of the loop: `none` for skipped lines and
for the specially handled `FN`/`N` lines and empty `ADR` values, `some` for the
`ADR` and generic branches, which bump the per-label counter. -/
def assignOf (line : List Char) : Option (List Char × List Char) :=
  let t := jsTrim line
  if t = [] ∨ t = kwBeginVCard ∨ t = kwEndVCard ∨ kwVERSION.isPrefixOf t then none
  else
    let fieldPart := t.takeWhile (fun c => c != ':')
    let colonRest := t.dropWhile (fun c => c != ':')
    if colonRest = [] then none
    else
      let value := jsTrim (colonRest.drop 1)
      if value = [] then none
      else if fieldPart = kwFN then none
      else if fieldPart = kwN then none
      else if kwADR.isPrefixOf fieldPart then
        let addrParts := (splitOnChar ';' value).filter (fun p => !(jsTrim p).isEmpty)
        if addrParts = [] then none
        else some (normalizeFieldName fieldPart, joinWith addrParts commaSpace)
      else some (normalizeFieldName fieldPart, value)

/-- Spec-side repeat-disambiguated key: the bare label for the first
occurrence, `"<label> <N>"` for the Nth occurrence with N at least 2. -/
def specRepeatKey (label : List Char) (n : Nat) : List Char :=
  if 2 ≤ n then label ++ ' ' :: natStr n else label

/-- Case-lowered string, the primary collation key of the `localeCompare` model. -/
def lowerStr (s : List Char) : List Char := s.map Char.toLower

/-- Modelled comparison for `String.prototype.localeCompare` (host-locale ICU
collation, which is environment dependent): `a ≤ b` iff `a` is
case-insensitively below `b`, with code-point order as tie-break.  Only the fact
that this is a total order matters for the theorems below. -/
def localeR (a b : List Char) : Prop :=
  List.Lex (fun x y : Char => x < y) (lowerStr a) (lowerStr b) ∨
    (lowerStr a = lowerStr b ∧ (List.Lex (fun x y : Char => x < y) a b ∨ a = b))

instance : DecidableRel localeR := fun a b => by
  unfold localeR
  infer_instance

/-- The comparator of the dynamic-schema `convertToCSV` sort, read as the
relation `compare(a, b) ≤ 0`: `First Name` sorts below everything, then
`Last Name`, then the `localeCompare` order. -/
def fieldR (a b : List Char) : Prop :=
  a = kwFirstName ∨
    (a ≠ kwFirstName ∧ b ≠ kwFirstName ∧
      (a = kwLastName ∨ (a ≠ kwLastName ∧ b ≠ kwLastName ∧ localeR a b)))

instance : DecidableRel fieldR := fun a b => by
  unfold fieldR
  infer_instance

/-- `Set.prototype.add` on an insertion-ordered list of keys. -/
def addKey (acc : List (List Char)) (k : List Char) : List (List Char) :=
  if k ∈ acc then acc else acc ++ [k]

/-- The union of all record keys in first-encounter order (the `Set` built by
`convertToCSV`). -/
def allFields (contacts : List (List (List Char × List Char))) : List (List Char) :=
  contacts.foldl (fun acc c => (keysOf c).foldl addKey acc) []

/-- The sorted header key sequence.  `Array.prototype.sort` with the (total,
consistent) comparator is modelled as insertion sort with respect to `fieldR`;
on the duplicate-free key array every correct sort yields this same list. -/
def sortedFields (contacts : List (List (List Char × List Char))) : List (List Char) :=
  List.insertionSort fieldR (allFields contacts)

/-- Embedding of `value.replace(/"/g, '""')`. -/
def escapeQuotes (value : List Char) : List Char :=
  (value.map (fun c => if c = '"' then ['"', '"'] else [c])).flatten

/-- Embedding of the dynamic-schema `convertToCSV`. -/
def convertToCSV (contacts : List (List (List Char × List Char))) : List Char :=
  joinWith
    (joinWith (sortedFields contacts) commaSep ::
      contacts.map (fun c =>
        joinWith
          ((sortedFields contacts).map (fun f => '"' :: escapeQuotes (lookupVal c f) ++ ['"']))
          commaSep))
    newlineSep

end Dyn

/-! ## Spec-side definitions used to state the claims -/

/-- Maximal runs of non-whitespace characters ("whitespace-delimited tokens"),
used to state the claim's reading of `parseName`. -/
def wsTokensAux : List Char → List Char → List (List Char)
  | [], acc => if acc = [] then [] else [acc.reverse]
  | c :: rest, acc =>
    if isWS c then
      if acc = [] then wsTokensAux rest [] else acc.reverse :: wsTokensAux rest []
    else wsTokensAux rest (c :: acc)

def wsTokens (s : List Char) : List (List Char) := wsTokensAux s []

/-- Name splitting as the claim states it: first whitespace-delimited token,
then the remaining tokens rejoined with single spaces. -/
def specNameWS (s : List Char) : List Char × List Char :=
  ((wsTokens s).headD [], joinWith ((wsTokens s).drop 1) [' '])

/-- The fixed header line as the spec writes it. -/
def specFixedHeader : List Char :=
  str ("First Name,Last Name,Phone 1,Phone 2,Phone 3,Email 1,Email 2,Email 3,Addresses")

/-- Spec-side cell: the value wrapped in double quotes, with no escaping. -/
def specQuoteNoEsc (v : List Char) : List Char := ['"'] ++ v ++ ['"']

/-- The nine field values of a fixed-schema record, in header order. -/
def fixedFields (c : Fixed.Contact) : List (List Char) :=
  [c.firstName, c.lastName, c.phone1, c.phone2, c.phone3, c.email1, c.email2, c.email3,
   c.addresses]

/-- Spec-side row: the field values in header order, each quoted, comma-joined. -/
def specFixedRow (c : Fixed.Contact) : List Char :=
  joinWith ((fixedFields c).map specQuoteNoEsc) commaSep

/-- The claim's phone condition: the field spec (the part of the trimmed line
before the first colon) starts with `TEL`. -/
def specClaimPhoneCond (line : List Char) : Bool :=
  kwTEL.isPrefixOf ((jsTrim line).takeWhile (fun c => c != ':'))

/-- Value contributed to the phone list by one line, per the amended claim: the
line must not be a full-name line, must start with `TEL:` or contain `TEL;`,
and the regex `TEL[^:]*:(.+)` must match; the contribution is the capture,
trimmed. -/
def specPhoneValue (line : List Char) : Option (List Char) :=
  if Fixed.kwFNColon.isPrefixOf (jsTrim line) then none
  else if Fixed.kwTELColon.isPrefixOf (jsTrim line) ∨ containsSub Fixed.kwTELSemi (jsTrim line) then
    (Fixed.matchFieldValue kwTEL (jsTrim line)).map jsTrim
  else none

/-- Value contributed to the email list by one line (the phone condition must
additionally have failed, since the phone branch is tested first). -/
def specEmailValue (line : List Char) : Option (List Char) :=
  if Fixed.kwFNColon.isPrefixOf (jsTrim line) then none
  else if Fixed.kwTELColon.isPrefixOf (jsTrim line) ∨ containsSub Fixed.kwTELSemi (jsTrim line) then
    none
  else if Fixed.kwEMAILColon.isPrefixOf (jsTrim line) ∨
      containsSub Fixed.kwEMAILSemi (jsTrim line) then
    (Fixed.matchFieldValue kwEMAIL (jsTrim line)).map jsTrim
  else none

/-- The spec's description of the header order: `First Name` first, then
`Last Name`, then everything else ascending in the locale order. -/
def specKeyOrder (a b : List Char) : Prop :=
  a = kwFirstName ∨ (a = kwLastName ∧ b ≠ kwFirstName) ∨
    (b ≠ kwFirstName ∧ b ≠ kwLastName ∧ Dyn.localeR a b)

/-- Spec-side quote escaping: each internal double quote is doubled. -/
def specEscape : List Char → List Char
  | [] => []
  | c :: rest => if c = '"' then '"' :: '"' :: specEscape rest else c :: specEscape rest

/-- Spec-side cell value: the record's value for the key, or the empty string
if the record lacks the key. -/
def specCellValue (c : List (List Char × List Char)) (k : List Char) : List Char :=
  ((c.find? (fun p => decide (p.1 = k))).map Prod.snd).getD []

/-- Spec-side cell: escaped value wrapped in double quotes. -/
def specDynCell (c : List (List Char × List Char)) (k : List Char) : List Char :=
  ['"'] ++ specEscape (specCellValue c k) ++ ['"']

/-! ## General lemmas about the string primitives -/

theorem splitOnChar_ne_nil (sep : Char) (s : List Char) : splitOnChar sep s ≠ [] := by
  cases s with
  | nil => simp [splitOnChar]
  | cons c rest =>
    simp only [splitOnChar]
    split
    · simp
    · split <;> simp

theorem splitOnChar_headD (sep : Char) (s : List Char) :
    (splitOnChar sep s).headD [] = s.takeWhile (fun c => c != sep) := by
  induction s with
  | nil => simp [splitOnChar]
  | cons c rest ih =>
    by_cases hc : c = sep
    · have hb : (c != sep) = false := by simp [hc]
      simp [splitOnChar, if_pos hc, List.takeWhile_cons, hb]
    · have hb : (c != sep) = true := by simp [bne_iff_ne, hc]
      simp only [splitOnChar, if_neg hc, List.takeWhile_cons, hb]
      cases h : splitOnChar sep rest with
      | nil => exact absurd h (splitOnChar_ne_nil sep rest)
      | cons p ps =>
        rw [h] at ih
        simp_all

theorem joinWith_splitOnChar (sep : Char) (s : List Char) :
    joinWith (splitOnChar sep s) [sep] = s := by
  induction s with
  | nil => simp [splitOnChar, joinWith]
  | cons c rest ih =>
    cases h : splitOnChar sep rest with
    | nil => exact absurd h (splitOnChar_ne_nil sep rest)
    | cons p ps =>
      rw [h] at ih
      by_cases hc : c = sep
      · subst hc
        simp only [splitOnChar, if_pos rfl, h]
        simpa [joinWith] using ih
      · simp only [splitOnChar, if_neg hc, h]
        cases ps with
        | nil => simpa [joinWith] using ih
        | cons q qs =>
          simp only [joinWith] at ih ⊢
          simp [← ih]

theorem joinWith_drop_splitOnChar (sep : Char) (s : List Char) :
    joinWith ((splitOnChar sep s).drop 1) [sep] = (s.dropWhile (fun c => c != sep)).drop 1 := by
  induction s with
  | nil => simp [splitOnChar, joinWith]
  | cons c rest ih =>
    by_cases hc : c = sep
    · have hb : (c != sep) = false := by simp [hc]
      simp only [splitOnChar, if_pos hc, List.dropWhile_cons, hb, Bool.false_eq_true, if_false,
        List.drop_succ_cons, List.drop_zero]
      exact joinWith_splitOnChar sep rest
    · have hb : (c != sep) = true := by simp [bne_iff_ne, hc]
      simp only [splitOnChar, if_neg hc, List.dropWhile_cons, hb, if_true]
      cases h : splitOnChar sep rest with
      | nil => exact absurd h (splitOnChar_ne_nil sep rest)
      | cons p ps =>
        rw [h] at ih
        simpa using ih

/-! ## Claim C6: name splitting -/

/-- Claim C6, counterexample: `parseName` splits on single spaces, not on
whitespace.  On the tab-separated full name `A\tB` the claim demands first name
`A` and last name `B`, but the code returns the whole string as the first name
and an empty last name. -/
theorem claim_C6_counterexample :
    parseName (str ("A\tB")) ≠ specNameWS (str ("A\tB")) ∧
    parseName (str ("A\tB")) = (str ("A\tB"), []) ∧
    specNameWS (str ("A\tB")) = (str ("A"), str ("B")) := by
  refine ⟨?_, by decide, by decide⟩
  decide

/-- Claim C6, amended: `parseName` splits the trimmed input at single space
characters (not at general whitespace): the first name is the longest
space-free prefix of the trimmed input and the last name is the remainder after
the first space (consecutive spaces are preserved in the last name).  The empty
string yields two empty strings, and `Jane Mary Doe` yields `Jane` / `Mary Doe`. -/
theorem claim_C6_amended :
    (∀ s, parseName s =
      ((jsTrim s).takeWhile (fun c => c != ' '),
        ((jsTrim s).dropWhile (fun c => c != ' ')).drop 1)) ∧
    parseName (str ("Jane Mary Doe")) = (str ("Jane"), str ("Mary Doe")) ∧
    parseName [] = ([], []) := by
  refine ⟨fun s => ?_, by decide, by decide⟩
  unfold parseName
  rw [splitOnChar_headD, joinWith_drop_splitOnChar]

/-! ## Claim C2: record count equals marker count -/

theorem splitMarkerGo_length (s : List Char) (skip : Nat) (acc : List Char) :
    (splitMarkerGo s skip acc).length = countMarkerGo s skip + 1 := by
  induction s, skip, acc using splitMarkerGo.induct with
  | case1 skip acc => simp [splitMarkerGo, countMarkerGo]
  | case2 c rest skip acc ih => simpa [splitMarkerGo, countMarkerGo] using ih
  | case3 c rest acc h ih =>
      simp only [splitMarkerGo, countMarkerGo, if_pos h]
      simp [ih]
  | case4 c rest acc h ih =>
      simp only [splitMarkerGo, countMarkerGo, if_neg h]
      simp [ih]

theorem ciEq_take_congr {x y : List Char}
    (hxy : List.Forall₂ (fun a b => lowerEq a b = true) x y) :
    ∀ (n : Nat) (m : List Char), ciEq (x.take n) m = ciEq (y.take n) m := by
  induction hxy with
  | nil => intro n m; rfl
  | @cons a b l1 l2 ha hf ih =>
    intro n m
    cases n with
    | zero => rfl
    | succ n =>
      cases m with
      | nil => simp [ciEq]
      | cons mc ms =>
        have hl : a.toLower = b.toLower := of_decide_eq_true ha
        simp only [List.take_succ_cons, ciEq, lowerEq, hl, ih n ms]

theorem countMarkerGo_congr {s t : List Char}
    (hst : List.Forall₂ (fun a b => lowerEq a b = true) s t) :
    ∀ skip, countMarkerGo s skip = countMarkerGo t skip := by
  induction hst with
  | nil => intro skip; rfl
  | @cons a b l1 l2 ha hf ih =>
    intro skip
    cases skip with
    | succ k => simpa [countMarkerGo] using ih k
    | zero =>
      have hci := ciEq_take_congr (List.Forall₂.cons ha hf) 11 kwBeginVCard
      simp only [countMarkerGo, hci]
      split
      · simpa using ih 10
      · simpa using ih 0

/-- Claim C2: for every input string, `parseVCF` (in either variant) returns
exactly one record per case-insensitive occurrence of `BEGIN:VCARD`; the empty
string and marker-free strings yield the empty record list (the function is
total, so no error is possible); and inputs that agree up to letter casing have
the same marker count, so markers are recognized identically in any casing. -/
theorem claim_C2 :
    (∀ s, (Fixed.parseVCF s).length = countMarker s) ∧
    (∀ s, (Dyn.parseVCF s).length = countMarker s) ∧
    Fixed.parseVCF [] = [] ∧ Dyn.parseVCF [] = [] ∧
    (∀ s, countMarker s = 0 → Fixed.parseVCF s = [] ∧ Dyn.parseVCF s = []) ∧
    (∀ s t, List.Forall₂ (fun a b => lowerEq a b = true) s t →
      countMarker s = countMarker t) := by
  have hlen : ∀ s, (splitMarker s).length = countMarker s + 1 := fun s =>
    splitMarkerGo_length s 0 []
  have hf : ∀ s, (Fixed.parseVCF s).length = countMarker s := by
    intro s
    simp [Fixed.parseVCF, hlen s]
  have hd : ∀ s, (Dyn.parseVCF s).length = countMarker s := by
    intro s
    simp [Dyn.parseVCF, hlen s]
  refine ⟨hf, hd, by decide, by decide, fun s h0 => ⟨?_, ?_⟩, fun s t hst =>
    countMarkerGo_congr hst 0⟩
  · have := hf s
    rw [h0] at this
    exact List.length_eq_zero.mp this
  · have := hd s
    rw [h0] at this
    exact List.length_eq_zero.mp this

/-- Witness for claim C2: the hypothesis-bearing conjuncts applied at concrete
inputs (a marker-free document, and the marker in two casings). -/
theorem claim_C2_witness :
    (countMarker (str ("no cards here")) = 0 ∧
      Fixed.parseVCF (str ("no cards here")) = [] ∧
      Dyn.parseVCF (str ("no cards here")) = []) ∧
    countMarker (str ("xxBeGiN:vCaRdyy")) = countMarker (str ("XXbegin:VCARDYY")) := by
  constructor
  · exact ⟨by decide, (claim_C2.2.2.2.2.1 (str ("no cards here")) (by decide)).1,
      (claim_C2.2.2.2.2.1 (str ("no cards here")) (by decide)).2⟩
  · refine claim_C2.2.2.2.2.2 _ _ ?_
    refine List.Forall₂.cons (by decide) ?_
    refine List.Forall₂.cons (by decide) ?_
    refine List.Forall₂.cons (by decide) ?_
    refine List.Forall₂.cons (by decide) ?_
    refine List.Forall₂.cons (by decide) ?_
    refine List.Forall₂.cons (by decide) ?_
    refine List.Forall₂.cons (by decide) ?_
    refine List.Forall₂.cons (by decide) ?_
    refine List.Forall₂.cons (by decide) ?_
    refine List.Forall₂.cons (by decide) ?_
    refine List.Forall₂.cons (by decide) ?_
    refine List.Forall₂.cons (by decide) ?_
    refine List.Forall₂.cons (by decide) ?_
    refine List.Forall₂.cons (by decide) ?_
    refine List.Forall₂.cons (by decide) ?_
    exact List.Forall₂.nil

/-! ## Claim C9: fixed-schema serialization -/

/-- Claim C9: fixed-schema `convertToCSV` emits the fixed header followed by one
row per record in input order, every cell quoted and not escaped (a cell
containing a double quote is emitted verbatim); an empty record list gives the
header only, while the dynamic serializer maps an empty record list to the
empty document. -/
theorem claim_C9 :
    (∀ contacts, Fixed.convertToCSV contacts =
      joinWith (specFixedHeader :: contacts.map specFixedRow) newlineSep) ∧
    Fixed.convertToCSV [] = specFixedHeader ∧
    Dyn.convertToCSV [] = [] ∧
    Fixed.convertToCSV
        [{ firstName := str ("He said \"hi\""), lastName := [], phone1 := [], phone2 := [],
           phone3 := [], email1 := [], email2 := [], email3 := [], addresses := [] }] =
      specFixedHeader ++ str ("\n\"He said \"hi\"\",\"\",\"\",\"\",\"\",\"\",\"\",\"\",\"\"") := by
  refine ⟨fun contacts => rfl, by decide, by decide, by decide⟩

/-! ## Claim C5: only the first three phones/emails survive -/

theorem take3_getD (l : List (List Char)) :
    (l.take 3).getD 0 [] = l.getD 0 [] ∧ (l.take 3).getD 1 [] = l.getD 1 [] ∧
      (l.take 3).getD 2 [] = l.getD 2 [] := by
  rcases l with _ | ⟨a, _ | ⟨b, _ | ⟨c, tl⟩⟩⟩ <;> simp

/-- Claim C5: the fixed-schema record is a function of only the first three
collected phone and email values (in source line order, missing slots empty);
the fourth and later values are dropped and appear in no field of the record,
as the concrete four-phone card shows. -/
theorem claim_C5 :
    (∀ text, Fixed.parseVCard text =
      Fixed.mkContact (Fixed.cardAcc text).fullName
        ((Fixed.cardAcc text).phoneNumbers.take 3) ((Fixed.cardAcc text).emails.take 3)
        (Fixed.cardAcc text).addresses) ∧
    Fixed.parseVCard (str ("BEGIN:VCARD\nTEL:111\nTEL:222\nTEL:333\nTEL:444\nEND:VCARD")) =
      { firstName := [], lastName := [], phone1 := str ("111"), phone2 := str ("222"),
        phone3 := str ("333"), email1 := [], email2 := [], email3 := [], addresses := [] } ∧
    str ("444") ∉
      fixedFields
        (Fixed.parseVCard (str ("BEGIN:VCARD\nTEL:111\nTEL:222\nTEL:333\nTEL:444\nEND:VCARD"))) ∧
    Fixed.parseVCard (str ("BEGIN:VCARD\nTEL:111\nEND:VCARD")) =
      { firstName := [], lastName := [], phone1 := str ("111"), phone2 := [], phone3 := [],
        email1 := [], email2 := [], email3 := [], addresses := [] } := by
  refine ⟨fun text => ?_, by decide, by decide, by decide⟩
  unfold Fixed.parseVCard Fixed.mkContact
  obtain ⟨p0, p1, p2⟩ := take3_getD (Fixed.cardAcc text).phoneNumbers
  obtain ⟨e0, e1, e2⟩ := take3_getD (Fixed.cardAcc text).emails
  simp [Fixed.Contact.mk.injEq, p0, p1, p2, e0, e1, e2]

/-! ## Claim C7: which lines feed the phone/email lists -/

theorem stepFn_phoneNumbers (st : Fixed.CardAcc) (line : List Char) :
    (Fixed.stepFn st line).phoneNumbers =
      st.phoneNumbers ++ (specPhoneValue line).toList := by
  simp only [Fixed.stepFn, specPhoneValue]
  split_ifs with h1 h2 h3 h4
  · simp
  · cases hm : Fixed.matchFieldValue kwTEL (jsTrim line) <;> simp [hm]
  · cases hm : Fixed.matchFieldValue kwEMAIL (jsTrim line) <;> simp [hm]
  · cases hm : Fixed.matchFieldValue kwADR (jsTrim line) with
    | none => simp
    | some v =>
      simp only []
      split <;> simp
  · simp

theorem stepFn_emails (st : Fixed.CardAcc) (line : List Char) :
    (Fixed.stepFn st line).emails = st.emails ++ (specEmailValue line).toList := by
  simp only [Fixed.stepFn, specEmailValue]
  split_ifs with h1 h2 h3 h4
  · simp
  · cases hm : Fixed.matchFieldValue kwTEL (jsTrim line) <;> simp [hm]
  · cases hm : Fixed.matchFieldValue kwEMAIL (jsTrim line) <;> simp [hm]
  · cases hm : Fixed.matchFieldValue kwADR (jsTrim line) with
    | none => simp
    | some v =>
      simp only []
      split <;> simp
  · simp

theorem foldl_stepFn_phoneNumbers (lines : List (List Char)) :
    ∀ st : Fixed.CardAcc,
      ((lines.foldl Fixed.stepFn st).phoneNumbers) =
        st.phoneNumbers ++ lines.filterMap specPhoneValue := by
  induction lines with
  | nil => intro st; simp
  | cons line rest ih =>
    intro st
    rw [List.foldl_cons, ih (Fixed.stepFn st line), stepFn_phoneNumbers]
    cases h : specPhoneValue line <;> simp [List.filterMap_cons, h]

theorem foldl_stepFn_emails (lines : List (List Char)) :
    ∀ st : Fixed.CardAcc,
      ((lines.foldl Fixed.stepFn st).emails) = st.emails ++ lines.filterMap specEmailValue := by
  induction lines with
  | nil => intro st; simp
  | cons line rest ih =>
    intro st
    rw [List.foldl_cons, ih (Fixed.stepFn st line), stepFn_emails]
    cases h : specEmailValue line <;> simp [List.filterMap_cons, h]

/-- Claim C7, counterexample: membership in the phone list is NOT "the field
spec starts with `TEL`".  The line `TELX:123` has field spec `TELX`, which
starts with `TEL`, yet nothing is appended; conversely `X-A;TEL;B:9` has field
spec `X-A` yet its value `9` is appended to the phone list. -/
theorem claim_C7_counterexample :
    specClaimPhoneCond (str ("TELX:123")) = true ∧
    (Fixed.cardAcc (str ("BEGIN:VCARD\nTELX:123\nEND:VCARD"))).phoneNumbers = [] ∧
    (Fixed.parseVCard (str ("BEGIN:VCARD\nTELX:123\nEND:VCARD"))).phone1 = [] ∧
    specClaimPhoneCond (str ("X-A;TEL;B:9")) = false ∧
    (Fixed.cardAcc (str ("BEGIN:VCARD\nX-A;TEL;B:9\nEND:VCARD"))).phoneNumbers = [str ("9")] := by
  refine ⟨by decide, by decide, by decide, by decide, by decide⟩

/-- Claim C7, amended: a line appends to the phone list exactly when it is not
a full-name line, it starts with `TEL:` or contains `TEL;` anywhere, and the
regex `TEL[^:]*:(.+)` matches on the trimmed line; the appended value is the
regex capture (the text after the first colon that follows a matchable `TEL`
occurrence), trimmed.  Emails behave the same with `EMAIL`, and only when the
phone condition did not fire first.  The collected lists follow source line
order. -/
theorem claim_C7_amended :
    (∀ text, (Fixed.cardAcc text).phoneNumbers = (splitLines text).filterMap specPhoneValue) ∧
    (∀ text, (Fixed.cardAcc text).emails = (splitLines text).filterMap specEmailValue) := by
  constructor
  · intro text
    unfold Fixed.cardAcc
    rw [foldl_stepFn_phoneNumbers]
    rfl
  · intro text
    unfold Fixed.cardAcc
    rw [foldl_stepFn_emails]
    rfl

/-! ## Claim C8: lines without a colon or without a value -/

theorem matchFieldValue_of_no_colon (pre : List Char) {s : List Char} (h : ':' ∉ s) :
    Fixed.matchFieldValue pre s = none := by
  induction s with
  | nil => rfl
  | cons c rest ih =>
    have hAt : Fixed.matchAt pre (c :: rest) = none := by
      unfold Fixed.matchAt
      split
      · have hall : ((c :: rest).drop pre.length).dropWhile (fun x => x != ':') = [] := by
          rw [List.dropWhile_eq_nil_iff]
          intro x hx
          have : x ∈ c :: rest := List.drop_subset _ _ hx
          simp [bne_iff_ne]
          intro hxc
          exact h (hxc ▸ this)
        rw [hall]
      · rfl
    rw [Fixed.matchFieldValue, hAt]
    exact ih (fun hm => h (List.mem_cons_of_mem c hm))

/-- Claim C8, counterexample: in the fixed-schema variant an `FN:` line with an
empty value does NOT leave the captured full name unchanged — it overwrites it
with the empty string.  After `FN:John Doe` followed by `FN:`, the record's
first/last name are empty instead of `John`/`Doe`. -/
theorem claim_C8_counterexample :
    (Fixed.parseVCard (str ("BEGIN:VCARD\nFN:John Doe\nFN:\nEND:VCARD"))).firstName = [] ∧
    (Fixed.parseVCard (str ("BEGIN:VCARD\nFN:John Doe\nFN:\nEND:VCARD"))).lastName = [] ∧
    (Fixed.parseVCard (str ("BEGIN:VCARD\nFN:John Doe\nEND:VCARD"))).firstName = str ("John") ∧
    (Fixed.parseVCard (str ("BEGIN:VCARD\nFN:John Doe\nEND:VCARD"))).lastName = str ("Doe") := by
  refine ⟨by decide, by decide, by decide, by decide⟩

/-- Claim C8, amended: in the dynamic variant a line with no colon or whose
value trims to the empty string contributes nothing; in the fixed variant a
line with no colon contributes nothing and an empty-valued `TEL`/`EMAIL`/`ADR`
line contributes nothing, but an `FN` line with an empty value overwrites the
captured full name with the empty string. -/
theorem claim_C8_amended :
    (∀ (st : Dyn.VState) (line : List Char),
      jsTrim (((jsTrim line).dropWhile (fun c => c != ':')).drop 1) = [] →
        Dyn.stepFn st line = st) ∧
    (∀ (st : Fixed.CardAcc) (line : List Char), ':' ∉ jsTrim line →
        Fixed.stepFn st line = st) ∧
    (∀ st : Fixed.CardAcc, Fixed.stepFn st (str ("FN:")) = { st with fullName := [] }) ∧
    (∀ st : Fixed.CardAcc, Fixed.stepFn st (str ("TEL;X:")) = st) ∧
    (∀ st : Fixed.CardAcc, Fixed.stepFn st (str ("EMAIL;X:")) = st) ∧
    (∀ st : Fixed.CardAcc, Fixed.stepFn st (str ("ADR;X:")) = st) := by
  refine ⟨?_, ?_, fun st => rfl, fun st => rfl, fun st => rfl, fun st => rfl⟩
  · intro st line h
    simp only [Dyn.stepFn]
    repeat' split
    all_goals simp_all
  · intro st line h
    have hmem : ∀ p : List Char, ':' ∈ p → ¬ (p.isPrefixOf (jsTrim line) = true) := by
      intro p hp hpre
      exact h ((List.isPrefixOf_iff_prefix.mp hpre).subset hp)
    have hFN := hmem Fixed.kwFNColon (by decide)
    have hT := matchFieldValue_of_no_colon kwTEL h
    have hE := matchFieldValue_of_no_colon kwEMAIL h
    have hA := matchFieldValue_of_no_colon kwADR h
    simp only [Fixed.stepFn, hFN, if_false, Bool.false_eq_true]
    split_ifs <;> simp [hT, hE, hA]

/-- Witness for claim C8: the skip properties applied to a concrete
empty-valued line and a concrete colon-free line. -/
theorem claim_C8_witness :
    (jsTrim (((jsTrim (str ("NOTE:"))).dropWhile (fun c => c != ':')).drop 1) = [] ∧
      Dyn.stepFn ⟨[], []⟩ (str ("NOTE:")) = ⟨[], []⟩) ∧
    (':' ∉ jsTrim (str ("NOVALUE")) ∧
      Fixed.stepFn ⟨[], [], [], []⟩ (str ("NOVALUE")) = ⟨[], [], [], []⟩) :=
  ⟨⟨by decide, claim_C8_amended.1 ⟨[], []⟩ (str ("NOTE:")) (by decide)⟩,
   ⟨by decide, claim_C8_amended.2.1 ⟨[], [], [], []⟩ (str ("NOVALUE")) (by decide)⟩⟩

/-! ## Claim C1: FN/N precedence for the name keys -/

/-- Claim C1, counterexample: an `FN` line appearing after an `N` line DOES
overwrite the `N`-derived values.  In the card `N:Doe;Jane` then
`FN:Bob Smith`, the final record has first name `Bob` and last name `Smith`,
not the `Jane`/`Doe` the claim demands. -/
theorem claim_C1_counterexample :
    lookupVal (Dyn.parseVCard (str ("BEGIN:VCARD\nN:Doe;Jane\nFN:Bob Smith\nEND:VCARD")))
        kwFirstName = str ("Bob") ∧
    lookupVal (Dyn.parseVCard (str ("BEGIN:VCARD\nN:Doe;Jane\nFN:Bob Smith\nEND:VCARD")))
        kwFirstName ≠ str ("Jane") ∧
    lookupVal (Dyn.parseVCard (str ("BEGIN:VCARD\nN:Doe;Jane\nFN:Bob Smith\nEND:VCARD")))
        kwLastName = str ("Smith") ∧
    lookupVal (Dyn.parseVCard (str ("BEGIN:VCARD\nN:Doe;Jane\nFN:Bob Smith\nEND:VCARD")))
        kwLastName ≠ str ("Doe") := by
  refine ⟨by decide, by decide, by decide, by decide⟩

/-- Claim C1, amended: an `FN` line with a non-empty value always (re)writes
both `First Name` and `Last Name`, regardless of what set them before; an `N`
line is a no-op whenever both keys already hold non-empty values.  So
"first writer wins" holds only in the FN-then-N direction. -/
theorem claim_C1_amended :
    (∀ (st : Dyn.VState) (line v : List Char),
      jsTrim line = kwFN ++ ':' :: v → jsTrim v = v → v ≠ [] →
      Dyn.stepFn st line =
        ⟨setEntry (setEntry st.contact kwFirstName (parseName v).1) kwLastName
          (parseName v).2, st.counts⟩) ∧
    (∀ (st : Dyn.VState) (line v : List Char),
      jsTrim line = kwN ++ ':' :: v →
      lookupVal st.contact kwFirstName ≠ [] → lookupVal st.contact kwLastName ≠ [] →
      Dyn.stepFn st line = st) := by
  constructor
  · intro st line v h1 h2 h3
    simp only [Dyn.stepFn, h1, kwFN]
    simp +decide [List.takeWhile_cons, List.dropWhile_cons, kwBeginVCard, kwEndVCard,
      kwVERSION, List.isPrefixOf, h2, h3, kwFN]
  · intro st line v h1 hF hL
    simp only [Dyn.stepFn, h1, kwN]
    simp +decide [List.takeWhile_cons, List.dropWhile_cons, kwBeginVCard, kwEndVCard,
      kwVERSION, List.isPrefixOf, hF, hL, kwFN, kwN]

/-- Witness for claim C1: both amended statements applied at concrete states
and lines. -/
theorem claim_C1_witness :
    Dyn.stepFn ⟨[], []⟩ (str ("FN:Bob Smith")) =
      ⟨setEntry (setEntry [] kwFirstName (parseName (str ("Bob Smith"))).1) kwLastName
        (parseName (str ("Bob Smith"))).2, []⟩ ∧
    Dyn.stepFn ⟨[(kwFirstName, str ("Jane")), (kwLastName, str ("Doe"))], []⟩
        (str ("N:X;Y")) =
      ⟨[(kwFirstName, str ("Jane")), (kwLastName, str ("Doe"))], []⟩ :=
  ⟨claim_C1_amended.1 ⟨[], []⟩ _ (str ("Bob Smith")) (by decide) (by decide) (by decide),
   claim_C1_amended.2 _ _ (str ("X;Y")) (by decide) (by decide) (by decide)⟩

/-! ## Claim C10: an N line fills empty name slots left by FN -/

theorem lookupVal_setEntry_self (m : List (List Char × List Char)) (k v : List Char) :
    lookupVal (setEntry m k v) k = v := by
  induction m with
  | nil => simp [setEntry, lookupVal]
  | cons p rest ih =>
    obtain ⟨k2, v2⟩ := p
    by_cases h : k2 = k
    · simp [setEntry, lookupVal, h]
    · simp [setEntry, lookupVal, h, ih]

theorem lookupVal_setEntry_ne (m : List (List Char × List Char)) {k1 k2 : List Char}
    (v : List Char) (h : k1 ≠ k2) : lookupVal (setEntry m k2 v) k1 = lookupVal m k1 := by
  have h21 : k2 ≠ k1 := Ne.symm h
  induction m with
  | nil => simp [setEntry, lookupVal, h21]
  | cons p rest ih =>
    obtain ⟨k3, v3⟩ := p
    by_cases h3 : k3 = k2
    · subst h3
      simp [setEntry, lookupVal, h21]
    · simp [setEntry, lookupVal, h3, ih]

/-- Characterization of one step on an `N` line: the two conditional
"set if absent" updates of the source, with absence read as the empty string. -/
theorem stepFn_N (st : Dyn.VState) (line v : List Char)
    (h1 : jsTrim line = kwN ++ ':' :: v) (h2 : jsTrim v = v) (hv : v ≠ []) :
    Dyn.stepFn st line =
      ⟨(if (splitOnChar ';' v).getD 0 [] ≠ [] ∧
            lookupVal
              (if (splitOnChar ';' v).getD 1 [] ≠ [] ∧ lookupVal st.contact kwFirstName = []
                then setEntry st.contact kwFirstName ((splitOnChar ';' v).getD 1 [])
                else st.contact) kwLastName = [] then
          setEntry
            (if (splitOnChar ';' v).getD 1 [] ≠ [] ∧ lookupVal st.contact kwFirstName = []
              then setEntry st.contact kwFirstName ((splitOnChar ';' v).getD 1 [])
              else st.contact) kwLastName ((splitOnChar ';' v).getD 0 [])
        else
          if (splitOnChar ';' v).getD 1 [] ≠ [] ∧ lookupVal st.contact kwFirstName = []
            then setEntry st.contact kwFirstName ((splitOnChar ';' v).getD 1 [])
            else st.contact), st.counts⟩ := by
  simp only [Dyn.stepFn, h1, kwN]
  simp +decide [List.takeWhile_cons, List.dropWhile_cons, kwBeginVCard, kwEndVCard,
    kwVERSION, List.isPrefixOf, kwFN, h2, hv]

/-- Claim C10: the `N` line's "set if absent" test treats an empty stored
string as absent.  If `First Name` currently holds the empty string (or is
missing) and the `N` value's second `;`-component is non-empty, the step stores
that component under `First Name`; symmetrically for `Last Name` and the first
component.  The concrete card `FN:Jane` then `N:Doe;Mary` ends with first name
`Jane` (non-empty, so kept) and last name `Doe` (empty after `FN:Jane`, so
overwritten). -/
theorem claim_C10 :
    (∀ (st : Dyn.VState) (line v : List Char),
      jsTrim line = kwN ++ ':' :: v → jsTrim v = v →
      lookupVal st.contact kwFirstName = [] → (splitOnChar ';' v).getD 1 [] ≠ [] →
      lookupVal (Dyn.stepFn st line).contact kwFirstName = (splitOnChar ';' v).getD 1 []) ∧
    (∀ (st : Dyn.VState) (line v : List Char),
      jsTrim line = kwN ++ ':' :: v → jsTrim v = v →
      lookupVal st.contact kwLastName = [] → (splitOnChar ';' v).getD 0 [] ≠ [] →
      lookupVal (Dyn.stepFn st line).contact kwLastName = (splitOnChar ';' v).getD 0 []) ∧
    lookupVal (Dyn.parseVCard (str ("BEGIN:VCARD\nFN:Jane\nN:Doe;Mary\nEND:VCARD")))
        kwFirstName = str ("Jane") ∧
    lookupVal (Dyn.parseVCard (str ("BEGIN:VCARD\nFN:Jane\nN:Doe;Mary\nEND:VCARD")))
        kwLastName = str ("Doe") := by
  have hFL : kwFirstName ≠ kwLastName := by decide
  have hLF : kwLastName ≠ kwFirstName := by decide
  refine ⟨?_, ?_, by decide, by decide⟩
  · intro st line v h1 h2 hFe hp
    have hv : v ≠ [] := by
      intro hnil
      rw [hnil] at hp
      exact hp (by decide)
    rw [stepFn_N st line v h1 h2 hv]
    simp only [if_pos (And.intro hp hFe)]
    by_cases hc2 : (splitOnChar ';' v).getD 0 [] ≠ [] ∧
        lookupVal (setEntry st.contact kwFirstName ((splitOnChar ';' v).getD 1 []))
          kwLastName = []
    · rw [if_pos hc2, lookupVal_setEntry_ne _ _ hFL, lookupVal_setEntry_self]
    · rw [if_neg hc2, lookupVal_setEntry_self]
  · intro st line v h1 h2 hLe hp0
    have hv : v ≠ [] := by
      intro hnil
      rw [hnil] at hp0
      exact hp0 (by decide)
    rw [stepFn_N st line v h1 h2 hv]
    by_cases hc1 : (splitOnChar ';' v).getD 1 [] ≠ [] ∧ lookupVal st.contact kwFirstName = []
    · simp only [if_pos hc1]
      have hL1 : lookupVal (setEntry st.contact kwFirstName ((splitOnChar ';' v).getD 1 []))
          kwLastName = [] := by
        rw [lookupVal_setEntry_ne _ _ hLF]
        exact hLe
      rw [if_pos (And.intro hp0 hL1), lookupVal_setEntry_self]
    · simp only [if_neg hc1]
      rw [if_pos (And.intro hp0 hLe), lookupVal_setEntry_self]

/-- Witness for claim C10: both fill-if-empty statements applied at a concrete
state and `N` line. -/
theorem claim_C10_witness :
    lookupVal (Dyn.stepFn ⟨[], []⟩ (str ("N:Doe;Mary"))).contact kwFirstName =
      (splitOnChar ';' (str ("Doe;Mary"))).getD 1 [] ∧
    lookupVal
        (Dyn.stepFn ⟨[(kwFirstName, str ("Jane")), (kwLastName, [])], []⟩
          (str ("N:Doe;Mary"))).contact kwLastName =
      (splitOnChar ';' (str ("Doe;Mary"))).getD 0 [] :=
  ⟨claim_C10.1 ⟨[], []⟩ _ (str ("Doe;Mary")) (by decide) (by decide) (by decide) (by decide),
   claim_C10.2.1 ⟨[(kwFirstName, str ("Jane")), (kwLastName, [])], []⟩ _ (str ("Doe;Mary"))
     (by decide) (by decide) (by decide) (by decide)⟩

/-! ## Claim C4: repeat disambiguation of field keys -/

theorem countVal_setEntry_self (m : List (List Char × Nat)) (k : List Char) (n : Nat) :
    countVal (setEntry m k n) k = n := by
  induction m with
  | nil => simp [setEntry, countVal]
  | cons p rest ih =>
    obtain ⟨k2, v2⟩ := p
    by_cases h : k2 = k
    · simp [setEntry, countVal, h]
    · simp [setEntry, countVal, h, ih]

theorem countVal_setEntry_ne (m : List (List Char × Nat)) {k1 k2 : List Char} (n : Nat)
    (h : k1 ≠ k2) : countVal (setEntry m k2 n) k1 = countVal m k1 := by
  have h21 : k2 ≠ k1 := Ne.symm h
  induction m with
  | nil => simp [setEntry, countVal, h21]
  | cons p rest ih =>
    obtain ⟨k3, v3⟩ := p
    by_cases h3 : k3 = k2
    · subst h3
      simp [setEntry, countVal, h21]
    · simp [setEntry, countVal, h3, ih]

theorem stepFn_assign_none (st : Dyn.VState) (line : List Char)
    (h : Dyn.assignOf line = none) : (Dyn.stepFn st line).counts = st.counts := by
  simp only [Dyn.stepFn, Dyn.assignOf] at h ⊢
  split_ifs at h ⊢ <;> simp_all

theorem stepFn_assign_some (st : Dyn.VState) (line L v : List Char)
    (h : Dyn.assignOf line = some (L, v)) :
    Dyn.stepFn st line =
      ⟨setEntry st.contact
          (if countVal st.counts L + 1 > 1 then L ++ ' ' :: natStr (countVal st.counts L + 1)
            else L) v,
        setEntry st.counts L (countVal st.counts L + 1)⟩ := by
  simp only [Dyn.stepFn, Dyn.assignOf] at h ⊢
  split_ifs at h ⊢ <;> simp_all

theorem foldl_stepFn_countVal (L : List Char) (lines : List (List Char)) :
    ∀ st : Dyn.VState,
      countVal ((lines.foldl Dyn.stepFn st).counts) L =
        countVal st.counts L +
          (lines.filterMap Dyn.assignOf).countP (fun p => decide (p.1 = L)) := by
  induction lines with
  | nil => intro st; simp
  | cons line rest ih =>
    intro st
    rw [List.foldl_cons, ih (Dyn.stepFn st line)]
    cases h : Dyn.assignOf line with
    | none =>
      rw [stepFn_assign_none st line h]
      simp [List.filterMap_cons, h]
    | some p =>
      obtain ⟨L2, v⟩ := p
      rw [stepFn_assign_some st line L2 v h]
      by_cases hL : L = L2
      · subst hL
        simp [List.filterMap_cons, h, countVal_setEntry_self, List.countP_cons]
        omega
      · have h2L : L2 ≠ L := Ne.symm hL
        simp [List.filterMap_cons, h, countVal_setEntry_ne _ _ hL, List.countP_cons, h2L]

theorem repeatKey_eq (L : List Char) (n : Nat) :
    (if n + 1 > 1 then L ++ ' ' :: natStr (n + 1) else L) = Dyn.specRepeatKey L (n + 1) := by
  unfold Dyn.specRepeatKey
  by_cases h : 2 ≤ n + 1
  · rw [if_pos (by omega), if_pos h]
  · rw [if_neg (by omega), if_neg h]

/-- Claim C4: with `N` counting the lines already assigned to a normalized
label within the card, the next line assigned to that label is stored under the
bare label when it is the first (N = 0) and under `"<label> <N+1>"` otherwise,
and the per-label counter becomes N + 1.  The two-phone card yields the keys
`Phone` → `111` and `Phone 2` → `222`. -/
theorem claim_C4 :
    (∀ (pre : List (List Char)) (line L v : List Char),
      Dyn.assignOf line = some (L, v) →
      Dyn.stepFn (Dyn.cardState pre) line =
        ⟨setEntry (Dyn.cardState pre).contact
            (Dyn.specRepeatKey L
              ((pre.filterMap Dyn.assignOf).countP (fun p => decide (p.1 = L)) + 1)) v,
          setEntry (Dyn.cardState pre).counts L
            ((pre.filterMap Dyn.assignOf).countP (fun p => decide (p.1 = L)) + 1)⟩) ∧
    lookupVal (Dyn.parseVCard (str ("BEGIN:VCARD\nTEL:111\nTEL:222\nEND:VCARD")))
        (str ("Phone")) = str ("111") ∧
    lookupVal (Dyn.parseVCard (str ("BEGIN:VCARD\nTEL:111\nTEL:222\nEND:VCARD")))
        (str ("Phone 2")) = str ("222") ∧
    keysOf (Dyn.parseVCard (str ("BEGIN:VCARD\nTEL:111\nTEL:222\nEND:VCARD"))) =
      [str ("Phone"), str ("Phone 2"), kwFirstName, kwLastName] := by
  refine ⟨?_, by decide, by decide, by decide⟩
  intro pre line L v h
  have hc : countVal (Dyn.cardState pre).counts L =
      (pre.filterMap Dyn.assignOf).countP (fun p => decide (p.1 = L)) := by
    have h0 := foldl_stepFn_countVal L pre ⟨[], []⟩
    simpa [Dyn.cardState, countVal] using h0
  rw [stepFn_assign_some _ _ _ _ h, hc, repeatKey_eq]

/-- Witness for claim C4: the repeat-key statement applied after one already
assigned `Phone` line, showing the second phone line stored as `Phone 2`. -/
theorem claim_C4_witness :
    Dyn.assignOf (str ("TEL:222")) = some (str ("Phone"), str ("222")) ∧
    Dyn.stepFn (Dyn.cardState [str ("TEL:111")]) (str ("TEL:222")) =
      ⟨setEntry (Dyn.cardState [str ("TEL:111")]).contact
          (Dyn.specRepeatKey (str ("Phone"))
            (([str ("TEL:111")].filterMap Dyn.assignOf).countP
              (fun p => decide (p.1 = str ("Phone"))) + 1)) (str ("222")),
        setEntry (Dyn.cardState [str ("TEL:111")]).counts (str ("Phone"))
          (([str ("TEL:111")].filterMap Dyn.assignOf).countP
            (fun p => decide (p.1 = str ("Phone"))) + 1)⟩ :=
  ⟨by decide, claim_C4.1 [str ("TEL:111")] (str ("TEL:222")) (str ("Phone")) (str ("222"))
    (by decide)⟩

/-! ## Claim C3: dynamic-schema serialization -/

theorem lexTrans {a b c : List Char} (h1 : List.Lex (fun x y : Char => x < y) a b)
    (h2 : List.Lex (fun x y : Char => x < y) b c) :
    List.Lex (fun x y : Char => x < y) a c := IsTrans.trans a b c h1 h2

theorem lexTri (a b : List Char) :
    List.Lex (fun x y : Char => x < y) a b ∨ a = b ∨ List.Lex (fun x y : Char => x < y) b a :=
  trichotomous a b

theorem localeR_total (a b : List Char) : Dyn.localeR a b ∨ Dyn.localeR b a := by
  rcases lexTri (Dyn.lowerStr a) (Dyn.lowerStr b) with h | h | h
  · exact Or.inl (Or.inl h)
  · rcases lexTri a b with h2 | h2 | h2
    · exact Or.inl (Or.inr ⟨h, Or.inl h2⟩)
    · exact Or.inl (Or.inr ⟨h, Or.inr h2⟩)
    · exact Or.inr (Or.inr ⟨h.symm, Or.inl h2⟩)
  · exact Or.inr (Or.inl h)

theorem localeR_trans {a b c : List Char} (h1 : Dyn.localeR a b) (h2 : Dyn.localeR b c) :
    Dyn.localeR a c := by
  rcases h1 with h1 | ⟨he1, h1⟩
  · rcases h2 with h2 | ⟨he2, _⟩
    · exact Or.inl (lexTrans h1 h2)
    · exact Or.inl (he2 ▸ h1)
  · rcases h2 with h2 | ⟨he2, h2⟩
    · exact Or.inl (he1 ▸ h2)
    · refine Or.inr ⟨he1.trans he2, ?_⟩
      rcases h1 with h1 | rfl
      · rcases h2 with h2 | rfl
        · exact Or.inl (lexTrans h1 h2)
        · exact Or.inl h1
      · exact h2

theorem fieldR_trans {a b c : List Char} (h1 : Dyn.fieldR a b) (h2 : Dyn.fieldR b c) :
    Dyn.fieldR a c := by
  unfold Dyn.fieldR at *
  rcases h1 with h1 | ⟨haF, hbF, h1⟩
  · exact Or.inl h1
  · rcases h2 with h2 | ⟨hbF2, hcF, h2⟩
    · exact absurd h2 hbF
    · rcases h1 with h1 | ⟨haL, hbL, h1⟩
      · exact Or.inr ⟨haF, hcF, Or.inl h1⟩
      · rcases h2 with h2 | ⟨hbL2, hcL, h2⟩
        · exact absurd h2 hbL
        · exact Or.inr ⟨haF, hcF, Or.inr ⟨haL, hcL, localeR_trans h1 h2⟩⟩

theorem fieldR_total (a b : List Char) : Dyn.fieldR a b ∨ Dyn.fieldR b a := by
  unfold Dyn.fieldR
  by_cases haF : a = kwFirstName
  · exact Or.inl (Or.inl haF)
  by_cases hbF : b = kwFirstName
  · exact Or.inr (Or.inl hbF)
  by_cases haL : a = kwLastName
  · exact Or.inl (Or.inr ⟨haF, hbF, Or.inl haL⟩)
  by_cases hbL : b = kwLastName
  · exact Or.inr (Or.inr ⟨hbF, haF, Or.inl hbL⟩)
  rcases localeR_total a b with h | h
  · exact Or.inl (Or.inr ⟨haF, hbF, Or.inr ⟨haL, hbL, h⟩⟩)
  · exact Or.inr (Or.inr ⟨hbF, haF, Or.inr ⟨hbL, haL, h⟩⟩)

theorem fieldR_imp_specKeyOrder (a b : List Char) (h : Dyn.fieldR a b) : specKeyOrder a b := by
  unfold Dyn.fieldR at h
  unfold specKeyOrder
  rcases h with h | ⟨haF, hbF, h⟩
  · exact Or.inl h
  · rcases h with h | ⟨haL, hbL, h⟩
    · exact Or.inr (Or.inl ⟨h, hbF⟩)
    · exact Or.inr (Or.inr ⟨hbF, hbL, h⟩)

theorem escapeQuotes_eq_specEscape (v : List Char) : Dyn.escapeQuotes v = specEscape v := by
  induction v with
  | nil => rfl
  | cons c rest ih =>
    unfold Dyn.escapeQuotes at ih ⊢
    by_cases h : c = '"'
    · simp [specEscape, h, ih]
    · simp [specEscape, h, ih]

theorem lookupVal_eq_specCellValue (m : List (List Char × List Char)) (k : List Char) :
    lookupVal m k = specCellValue m k := by
  induction m with
  | nil => rfl
  | cons p rest ih =>
    obtain ⟨k2, v2⟩ := p
    by_cases h : k2 = k
    · simp [lookupVal, specCellValue, h]
    · simp [lookupVal, specCellValue, h, ih]

theorem mem_foldl_addKey (ks : List (List Char)) :
    ∀ (acc : List (List Char)) (k : List Char),
      k ∈ ks.foldl Dyn.addKey acc ↔ k ∈ acc ∨ k ∈ ks := by
  induction ks with
  | nil => intro acc k; simp
  | cons a rest ih =>
    intro acc k
    rw [List.foldl_cons, ih]
    unfold Dyn.addKey
    by_cases h : a ∈ acc
    · rw [if_pos h]
      simp only [List.mem_cons]
      constructor
      · rintro (hk | hk)
        · exact Or.inl hk
        · exact Or.inr (Or.inr hk)
      · rintro (hk | hk | hk)
        · exact Or.inl hk
        · exact Or.inl (hk ▸ h)
        · exact Or.inr hk
    · rw [if_neg h]
      simp [List.mem_append, List.mem_cons, or_assoc]

theorem nodup_foldl_addKey (ks : List (List Char)) :
    ∀ acc : List (List Char), acc.Nodup → (ks.foldl Dyn.addKey acc).Nodup := by
  induction ks with
  | nil => intro acc h; simpa
  | cons a rest ih =>
    intro acc h
    rw [List.foldl_cons]
    apply ih
    unfold Dyn.addKey
    split
    · exact h
    · next h2 => simp [List.nodup_append, h, h2]

theorem mem_allFields (contacts : List (List (List Char × List Char))) (k : List Char) :
    k ∈ Dyn.allFields contacts ↔ ∃ c ∈ contacts, k ∈ keysOf c := by
  unfold Dyn.allFields
  have h : ∀ acc, k ∈ contacts.foldl (fun acc c => (keysOf c).foldl Dyn.addKey acc) acc ↔
      k ∈ acc ∨ ∃ c ∈ contacts, k ∈ keysOf c := by
    induction contacts with
    | nil => intro acc; simp
    | cons c rest ih =>
      intro acc
      rw [List.foldl_cons, ih, mem_foldl_addKey]
      simp only [List.mem_cons]
      constructor
      · rintro ((hk | hk) | ⟨c2, hc2, hk⟩)
        · exact Or.inl hk
        · exact Or.inr ⟨c, Or.inl rfl, hk⟩
        · exact Or.inr ⟨c2, Or.inr hc2, hk⟩
      · rintro (hk | ⟨c2, hc2 | hc2, hk⟩)
        · exact Or.inl (Or.inl hk)
        · exact Or.inl (Or.inr (hc2 ▸ hk))
        · exact Or.inr ⟨c2, hc2, hk⟩
  simpa using h []

theorem nodup_allFields (contacts : List (List (List Char × List Char))) :
    (Dyn.allFields contacts).Nodup := by
  unfold Dyn.allFields
  have h : ∀ acc : List (List Char), acc.Nodup →
      (contacts.foldl (fun acc c => (keysOf c).foldl Dyn.addKey acc) acc).Nodup := by
    induction contacts with
    | nil => intro acc hacc; simpa
    | cons c rest ih =>
      intro acc hacc
      rw [List.foldl_cons]
      exact ih _ (nodup_foldl_addKey _ _ hacc)
  exact h [] (by simp)

/-- Claim C3: the dynamic-schema CSV header is exactly the duplicate-free union
of the record keys, ordered with `First Name` first, `Last Name` second and the
remaining keys ascending in the (modelled) locale order; the document is the
comma-joined header followed, newline-separated, by one row per record whose
cells are the record's value for the header key (empty if absent), with every
internal double quote doubled, wrapped in double quotes. -/
theorem claim_C3 (contacts : List (List (List Char × List Char))) :
    (Dyn.sortedFields contacts).Nodup ∧
    (∀ k, k ∈ Dyn.sortedFields contacts ↔ ∃ c ∈ contacts, k ∈ keysOf c) ∧
    (Dyn.sortedFields contacts).Pairwise specKeyOrder ∧
    Dyn.convertToCSV contacts =
      joinWith
        (joinWith (Dyn.sortedFields contacts) commaSep ::
          contacts.map (fun c =>
            joinWith ((Dyn.sortedFields contacts).map (specDynCell c)) commaSep))
        newlineSep := by
  have hperm := List.perm_insertionSort Dyn.fieldR (Dyn.allFields contacts)
  refine ⟨?_, ?_, ?_, ?_⟩
  · exact hperm.nodup_iff.mpr (nodup_allFields contacts)
  · intro k
    rw [Dyn.sortedFields, List.mem_insertionSort, mem_allFields]
  · haveI : IsTotal (List Char) Dyn.fieldR := ⟨fieldR_total⟩
    haveI : IsTrans (List Char) Dyn.fieldR := ⟨fun _ _ _ h1 h2 => fieldR_trans h1 h2⟩
    have hs : (Dyn.sortedFields contacts).Pairwise Dyn.fieldR :=
      List.sorted_insertionSort Dyn.fieldR (Dyn.allFields contacts)
    exact hs.imp (fun h => fieldR_imp_specKeyOrder _ _ h)
  · unfold Dyn.convertToCSV
    congr 1
    congr 1
    apply List.map_congr_left
    intro c _
    congr 1
    apply List.map_congr_left
    intro f _
    show '"' :: Dyn.escapeQuotes (lookupVal c f) ++ ['"'] = specDynCell c f
    rw [escapeQuotes_eq_specEscape, lookupVal_eq_specCellValue]
    rfl
